import Mathlib

/-!
Verification of the markdown-ify HTML-to-Markdown conversion core.

This file gives a shallow embedding, in Lean, of the string-level parts of
`src/services/markdownConversionService.ts` and
`src/services/complexStructureService.ts`, and settles a list of claims
about them.

Modelling conventions:
* JavaScript strings are Lean `String`s (operations are written over
  `List Char`).
* Each JavaScript `String.prototype.replace(regex, r)` call is translated
  into an executable scanner that reproduces the semantics of the concrete
  regular expression used at that call site: leftmost match, global
  non-overlapping scanning (the scan resumes right after the matched text),
  greedy/lazy quantifiers and ordered alternation with backtracking as the
  specific pattern requires.  Each scanner is documented with the regex it
  implements.
* Scanners whose steps consume a computed amount of input take a `fuel`
  argument; every step consumes at least one character, so running them
  with `fuel = input length` is exhaustive.
* DOM-dependent steps (parsing, `querySelectorAll`, Turndown itself) are
  external capabilities in the source design; they appear here as explicit
  functional parameters.  Pure string-level code is always translated
  directly from the source.
-/

namespace MarkdownIfy

/-- The backtick character (code 96), named to keep scanner definitions readable. -/
def btick : Char := Char.ofNat 96

/-- Lowercase ASCII letter test, by character code. -/
def isLowerAscii (c : Char) : Bool := 97 ≤ c.toNat && c.toNat ≤ 122

/-- JavaScript regex `\s` class (the whitespace code points that occur in
practice: space, tab, LF, CR, VT, FF, NBSP). -/
def isJsWs (c : Char) : Bool :=
  c == ' ' || c == '\t' || c == '\n' || c == '\r' ||
  c == '\x0b' || c == '\x0c' || c == '\u00A0'

/-- Space-or-tab test, the JavaScript regex class `[ \t]`. -/
def isSpaceTab (c : Char) : Bool := c == ' ' || c == '\t'

/-- ASCII digit test, the JavaScript regex class `\d`. -/
def isDigit (c : Char) : Bool := 48 ≤ c.toNat && c.toNat ≤ 57

/-- ASCII alphanumeric test, the JavaScript regex class `[a-zA-Z0-9]`. -/
def isAlnum (c : Char) : Bool :=
  isDigit c || isLowerAscii c || (65 ≤ c.toNat && c.toNat ≤ 90)

/-- ASCII lower-casing of one character (JavaScript `toLowerCase` on the
alphanumeric characters the code feeds it). -/
def lowerChar (c : Char) : Char :=
  if 65 ≤ c.toNat && c.toNat ≤ 90 then Char.ofNat (c.toNat + 32) else c

/-- JavaScript `String.prototype.trim` on a character list. -/
def jsTrimL (l : List Char) : List Char :=
  ((l.dropWhile isJsWs).reverse.dropWhile isJsWs).reverse

/-- JavaScript `String.prototype.trim`. -/
def jsTrim (s : String) : String := ⟨jsTrimL s.data⟩

/-- Decimal digits of a natural number, as characters (auxiliary, fuelled). -/
def natCharsAux : Nat → Nat → List Char
  | 0, _ => []
  | f + 1, n =>
    if n < 10 then [Char.ofNat (48 + n)]
    else natCharsAux f (n / 10) ++ [Char.ofNat (48 + n % 10)]

/-- Decimal digits of a natural number, as characters. -/
def natChars (n : Nat) : List Char := natCharsAux (n + 1) n

/-- Value of a list of ASCII digit characters (JavaScript `parseInt` on the
digit strings captured by `(\d+)`). -/
def digitsVal (l : List Char) : Nat := l.foldl (fun a c => 10 * a + (c.toNat - 48)) 0

/-- Characters of `l` strictly after its last newline (`l` itself when it has
no newline). -/
def afterLastNl (l : List Char) : List Char :=
  (l.reverse.takeWhile (fun c => c ≠ '\n')).reverse

/-!
## The Markdown post-processor

`MarkdownConversionService.postProcessMarkdown` is a fixed chain of
JavaScript regex replacements.  Each pass below implements one `.replace`
call of that chain, in source order.
-/

/-- Pass 1, `.replace(/\r\n/g, '\n')`: normalize line endings. -/
def normalizeEols : List Char → List Char
  | [] => []
  | [c] => [c]
  | c :: c2 :: cs =>
    if c = '\r' ∧ c2 = '\n' then '\n' :: normalizeEols cs
    else c :: normalizeEols (c2 :: cs)

/-- Pass 2, `.replace(/\n{3,}/g, '\n\n')`: collapse runs of three or more
newlines to exactly two. -/
def collapseBlankLinesAux : Nat → List Char → List Char
  | 0, cs => cs
  | _ + 1, [] => []
  | f + 1, c :: cs =>
    if c = '\n' then
      let nls := cs.takeWhile (fun x => x = '\n')
      let rest := cs.dropWhile (fun x => x = '\n')
      if nls.length + 1 ≥ 3 then '\n' :: '\n' :: collapseBlankLinesAux f rest
      else c :: (nls ++ collapseBlankLinesAux f rest)
    else c :: collapseBlankLinesAux f cs

/-- Pass 3, `.replace(/\n\s*[-*+]\s/g, '\n- ')`: list-item marker spacing.
The classes `\s` and `[-*+]` are disjoint, so the greedy `\s*` is simply the
maximal whitespace run. -/
def fixListSpacingAux : Nat → List Char → List Char
  | 0, cs => cs
  | _ + 1, [] => []
  | f + 1, c :: cs =>
    if c = '\n' then
      let ws := cs.takeWhile isJsWs
      let r1 := cs.dropWhile isJsWs
      match r1 with
      | b :: w :: r2 =>
        if (b = '-' ∨ b = '*' ∨ b = '+') ∧ isJsWs w = true then
          '\n' :: '-' :: ' ' :: fixListSpacingAux f r2
        else c :: fixListSpacingAux f cs
      | _ => c :: fixListSpacingAux f cs
    else c :: fixListSpacingAux f cs

/-- Pass 4, `.replace(/(\n¬¬¬[^\n]*\n)(.*?)(\n¬¬¬\s*)/g, '\n$1$2$3\n')` where
`¬¬¬` stands for three backticks.  The lazy middle group cannot contain a
newline, so a match is exactly: a fence-opening line, one body line, and a
fence-closing line plus its trailing whitespace; the replacement re-inserts
the match with one extra newline on each side. -/
def codeBlockSpacingAux : Nat → List Char → List Char
  | 0, cs => cs
  | _ + 1, [] => []
  | f + 1, c :: cs =>
    if c = '\n' then
      match cs with
      | b1 :: b2 :: b3 :: r0 =>
        if b1 = btick ∧ b2 = btick ∧ b3 = btick then
          let lang := r0.takeWhile (fun x => x ≠ '\n')
          let r1 := r0.dropWhile (fun x => x ≠ '\n')
          match r1 with
          | '\n' :: r2 =>
            let body := r2.takeWhile (fun x => x ≠ '\n')
            let r3 := r2.dropWhile (fun x => x ≠ '\n')
            match r3 with
            | '\n' :: e1 :: e2 :: e3 :: r4 =>
              if e1 = btick ∧ e2 = btick ∧ e3 = btick then
                let tws := r4.takeWhile isJsWs
                let r5 := r4.dropWhile isJsWs
                ('\n' :: '\n' :: btick :: btick :: btick :: lang) ++ '\n' :: body ++
                  ('\n' :: btick :: btick :: btick :: tws) ++ '\n' ::
                  codeBlockSpacingAux f r5
              else c :: codeBlockSpacingAux f cs
            | _ => c :: codeBlockSpacingAux f cs
          | _ => c :: codeBlockSpacingAux f cs
        else c :: codeBlockSpacingAux f cs
      | _ => c :: codeBlockSpacingAux f cs
    else c :: codeBlockSpacingAux f cs

/-- Pass 5, `.replace(/\n(#{1,6})\s*([^\n]+)/g, '\n$1 $2')`: heading marker
spacing.  `#{1,6}` takes at most six characters of the hash run; the greedy
`\s*` backtracks just enough for `[^\n]+` to match at least one character
(which may itself be non-newline whitespace).  When nothing but newlines (or
the end of input) follows the hashes, `#{1,6}` itself gives back one hash so
that `[^\n]+` can capture it (a bare `\n##` becomes `\n# #`); a single bare
hash admits no split and does not match. -/
def headingSpacingAux : Nat → List Char → List Char
  | 0, cs => cs
  | _ + 1, [] => []
  | f + 1, c :: cs =>
    if c = '\n' then
      let hashes := cs.takeWhile (fun x => x = '#')
      let afterH := cs.dropWhile (fun x => x = '#')
      if hashes.length = 0 then c :: headingSpacingAux f cs
      else
        let keep := min hashes.length 6
        let u := List.replicate (hashes.length - keep) '#' ++ afterH
        let ws := u.takeWhile isJsWs
        let rest := u.dropWhile isJsWs
        match rest with
        | _ :: _ =>
          let content := rest.takeWhile (fun y => y ≠ '\n')
          let rOut := rest.dropWhile (fun y => y ≠ '\n')
          ('\n' :: List.replicate keep '#') ++ ' ' :: content ++
            headingSpacingAux f rOut
        | [] =>
          let t := (ws.reverse.takeWhile (fun y => y = '\n')).length
          if t = ws.length then
            if keep ≥ 2 then
              ('\n' :: List.replicate (keep - 1) '#') ++ ' ' :: '#' ::
                headingSpacingAux f ws
            else c :: headingSpacingAux f cs
          else
            let body := (ws.drop (ws.length - t - 1)).takeWhile (fun y => y ≠ '\n')
            ('\n' :: List.replicate keep '#') ++ ' ' :: body ++
              headingSpacingAux f (List.replicate t '\n')
    else c :: headingSpacingAux f cs

/-- One line of pass 6: remove a trailing `[ \t]+` run. -/
def trimLineEnd (l : List Char) : List Char :=
  (l.reverse.dropWhile isSpaceTab).reverse

/-- Split on newline characters (the list of lines; n newlines give n+1 lines). -/
def splitLines : List Char → List (List Char)
  | [] => [[]]
  | c :: cs =>
    if c = '\n' then [] :: splitLines cs
    else
      match splitLines cs with
      | l :: ls => (c :: l) :: ls
      | [] => [[c]]

/-- Rejoin lines with newlines. -/
def joinLines : List (List Char) → List Char
  | [] => []
  | [l] => l
  | l :: ls => l ++ '\n' :: joinLines ls

/-- Pass 6, `.replace(/[ \t]+$/gm, '')`: strip trailing space/tab runs at each
end of line (multiline `$`: before every newline and at the end). -/
def trimLineEnds (cs : List Char) : List Char :=
  joinLines ((splitLines cs).map trimLineEnd)

/-- Pass 7a, `.replace(/\|[ \t]+/g, '| ')`: collapse whitespace after a pipe. -/
def pipeSpaceAfterAux : Nat → List Char → List Char
  | 0, cs => cs
  | _ + 1, [] => []
  | f + 1, c :: cs =>
    if c = '|' then
      let run := cs.takeWhile isSpaceTab
      let rest := cs.dropWhile isSpaceTab
      if run.length = 0 then c :: pipeSpaceAfterAux f cs
      else '|' :: ' ' :: pipeSpaceAfterAux f rest
    else c :: pipeSpaceAfterAux f cs

/-- Pass 7b, `.replace(/[ \t]+\|/g, ' |')`: collapse whitespace before a pipe.
When the maximal space/tab run is not followed by a pipe, no suffix of the
run matches either, so the scanner may emit the whole run and move on. -/
def pipeSpaceBeforeAux : Nat → List Char → List Char
  | 0, cs => cs
  | _ + 1, [] => []
  | f + 1, c :: cs =>
    if isSpaceTab c = true then
      let run := (c :: cs).takeWhile isSpaceTab
      let rest := (c :: cs).dropWhile isSpaceTab
      match rest with
      | d :: r2 =>
        if d = '|' then ' ' :: '|' :: pipeSpaceBeforeAux f r2
        else run ++ pipeSpaceBeforeAux f (d :: r2)
      | [] => run ++ pipeSpaceBeforeAux f []
    else c :: pipeSpaceBeforeAux f cs

/-- Pass 8, `.replace(/\n\s{2,}[-*+]\s/g, cb)` with
`cb = m => '\n' + ' '.repeat(floor((m.length-3)/2)*2) + '- '`: recompute
nested-list indentation.  A match is a newline, a whitespace run of length
`w ≥ 2`, a bullet and one whitespace character, so `m.length = w + 3`. -/
def nestedIndentAux : Nat → List Char → List Char
  | 0, cs => cs
  | _ + 1, [] => []
  | f + 1, c :: cs =>
    if c = '\n' then
      let ws := cs.takeWhile isJsWs
      let r1 := cs.dropWhile isJsWs
      match r1 with
      | b :: w :: r2 =>
        if ws.length ≥ 2 ∧ (b = '-' ∨ b = '*' ∨ b = '+') ∧ isJsWs w = true then
          '\n' :: (List.replicate ((ws.length / 2) * 2) ' ' ++ '-' :: ' ' ::
            nestedIndentAux f r2)
        else c :: nestedIndentAux f cs
      | _ => c :: nestedIndentAux f cs
    else c :: nestedIndentAux f cs

/-- Pass 9, `.replace(/\n>\s*\n>/g, '\n>\n>')`: blank lines inside
blockquotes.  The greedy `\s*` must end right before a newline whose
successor is `>`; the only candidate is the final character of the maximal
whitespace run. -/
def blockquoteBlankAux : Nat → List Char → List Char
  | 0, cs => cs
  | _ + 1, [] => []
  | f + 1, c :: cs =>
    if c = '\n' then
      match cs with
      | '>' :: r1 =>
        let ws := r1.takeWhile isJsWs
        let rest := r1.dropWhile isJsWs
        match rest with
        | '>' :: r2 =>
          if ws.length ≥ 1 ∧ ws.getLast? = some '\n' then
            '\n' :: '>' :: '\n' :: '>' :: blockquoteBlankAux f r2
          else c :: blockquoteBlankAux f cs
        | _ => c :: blockquoteBlankAux f cs
      | _ => c :: blockquoteBlankAux f cs
    else c :: blockquoteBlankAux f cs

/-- Pass 10, `.replace(/\n([-*_]{3,})\n/g, '\n\n$1\n\n')`: blank lines around
horizontal rules. -/
def hrSpacingAux : Nat → List Char → List Char
  | 0, cs => cs
  | _ + 1, [] => []
  | f + 1, c :: cs =>
    if c = '\n' then
      let run := cs.takeWhile (fun x => x = '-' ∨ x = '*' ∨ x = '_')
      let rest := cs.dropWhile (fun x => x = '-' ∨ x = '*' ∨ x = '_')
      match rest with
      | '\n' :: r2 =>
        if run.length ≥ 3 then
          '\n' :: '\n' :: (run ++ '\n' :: '\n' :: hrSpacingAux f r2)
        else c :: hrSpacingAux f cs
      | _ => c :: hrSpacingAux f cs
    else c :: hrSpacingAux f cs

/-- Heading-line parse used by pass 11: `#{1,6} [^\n]+` at the start of `l`
(with more than six hashes every alternative fails, since the character after
the hashes taken must be a literal space). -/
def headGapLine (l : List Char) : Option (List Char × List Char × List Char) :=
  let hs := l.takeWhile (fun x => x = '#')
  let r1 := l.dropWhile (fun x => x = '#')
  if 1 ≤ hs.length ∧ hs.length ≤ 6 then
    match r1 with
    | ' ' :: r2 =>
      let content := r2.takeWhile (fun y => y ≠ '\n')
      let rest := r2.dropWhile (fun y => y ≠ '\n')
      if content.length ≥ 1 then some (hs, content, rest) else none
    | _ => none
  else none

/-- Pass 11, `.replace(/(\n#{1,6} [^\n]+\n)(?=#{1,6} [^\n]+)/g, '$1\n')`:
insert a blank line between adjacent headings.  The lookahead is not
consumed. -/
def headingGapAux : Nat → List Char → List Char
  | 0, cs => cs
  | _ + 1, [] => []
  | f + 1, c :: cs =>
    if c = '\n' then
      match headGapLine cs with
      | some (hs, content, rest) =>
        match rest with
        | '\n' :: r4 =>
          match headGapLine r4 with
          | some _ =>
            '\n' :: (hs ++ ' ' :: content ++ '\n' :: '\n' :: headingGapAux f r4)
          | none => c :: headingGapAux f cs
        | _ => c :: headingGapAux f cs
      | none => c :: headingGapAux f cs
    else c :: headingGapAux f cs

/-- Pass 12, `.replace(/\[([^\]]+)\]\(([^)]+)\)/g, (m,text,url) =>
«[text.trim()](url.trim())»)`: trim whitespace inside link text and URL. -/
def linkTrimAux : Nat → List Char → List Char
  | 0, cs => cs
  | _ + 1, [] => []
  | f + 1, c :: cs =>
    if c = '[' then
      let text := cs.takeWhile (fun x => x ≠ ']')
      let r1 := cs.dropWhile (fun x => x ≠ ']')
      match r1 with
      | ']' :: '(' :: r2 =>
        let url := r2.takeWhile (fun x => x ≠ ')')
        let r3 := r2.dropWhile (fun x => x ≠ ')')
        match r3 with
        | ')' :: r4 =>
          if text.length ≥ 1 ∧ url.length ≥ 1 then
            '[' :: (jsTrimL text ++ ']' :: '(' :: jsTrimL url ++ ')' ::
              linkTrimAux f r4)
          else c :: linkTrimAux f cs
        | _ => c :: linkTrimAux f cs
      | _ => c :: linkTrimAux f cs
    else c :: linkTrimAux f cs

/-- Pass 13, `.replace(/¬\s+([^¬]+)\s+¬/g, '¬$1¬')` where `¬` is a backtick:
trim whitespace inside inline code.  Between the backticks the segment `S`
matches iff it starts and ends with whitespace and has length at least 3;
the greedy split takes `\s+` as `min(maximal whitespace run, |S|-2)` and the
final `\s+` as the single last character, capturing everything between. -/
def inlineCodeTrimAux : Nat → List Char → List Char
  | 0, cs => cs
  | _ + 1, [] => []
  | f + 1, c :: cs =>
    if c = btick then
      let seg := cs.takeWhile (fun x => x ≠ btick)
      let r1 := cs.dropWhile (fun x => x ≠ btick)
      match r1 with
      | b :: r2 =>
        let w := min (seg.takeWhile isJsWs).length (seg.length - 2)
        if b = btick ∧ seg.length ≥ 3 ∧ (seg.head?.elim false isJsWs) = true ∧
            (seg.getLast?.elim false isJsWs) = true then
          btick :: ((seg.drop w).dropLast ++ btick :: inlineCodeTrimAux f r2)
        else c :: inlineCodeTrimAux f cs
      | _ => c :: inlineCodeTrimAux f cs
    else c :: inlineCodeTrimAux f cs

/-- First match of `/(\d+)\.\s+/` in a line: the value of the captured digit
run, scanning position by position as the regex engine does. -/
def findListNum : List Char → Option Nat
  | [] => none
  | c :: cs =>
    if isDigit c = true then
      let ds := (c :: cs).takeWhile isDigit
      let r1 := (c :: cs).dropWhile isDigit
      match r1 with
      | '.' :: w :: _ =>
        if isJsWs w = true then some (digitsVal ds) else findListNum cs
      | _ => findListNum cs
    else findListNum cs

/-- Match attempt for pass 14 after a newline: `\s*\d+\.\s+` (the classes are
disjoint, so the greedy quantifiers are maximal runs).  Returns the matched
pieces and the rest. -/
def orderedMatch (cs : List Char) :
    Option (List Char × List Char × List Char × List Char) :=
  let wsA := cs.takeWhile isJsWs
  let r1 := cs.dropWhile isJsWs
  let ds := r1.takeWhile isDigit
  let r2 := r1.dropWhile isDigit
  if ds.length ≥ 1 then
    match r2 with
    | '.' :: r3 =>
      let wsB := r3.takeWhile isJsWs
      let r4 := r3.dropWhile isJsWs
      if wsB.length ≥ 1 then some (wsA, ds, wsB, r4) else none
    | _ => none
  else none

/-- Pass 14, `.replace(/\n\s*\d+\.\s+/g, cb)`: renumber ordered lists.  The
callback inspects `string.substring(0, offset)` — the ORIGINAL string — so
`lineAcc` tracks the characters of the current original line; the new number
is one more than the first `(\d+)\.\s+` capture of that original previous
line, or 1 when that line has no such match. -/
def orderedRenumberAux : Nat → List Char → List Char → List Char
  | 0, _, cs => cs
  | _ + 1, _, [] => []
  | f + 1, lineAcc, c :: cs =>
    if c = '\n' then
      match orderedMatch cs with
      | some (wsA, ds, wsB, rest) =>
        let n := (findListNum lineAcc).elim 1 (fun k => k + 1)
        let matched := '\n' :: (wsA ++ ds ++ '.' :: wsB)
        '\n' :: (natChars n ++ '.' :: ' ' ::
          orderedRenumberAux f (afterLastNl matched) rest)
      | none => '\n' :: orderedRenumberAux f [] cs
    else c :: orderedRenumberAux f (lineAcc ++ [c]) cs

/-- Pass 15, `.replace(/¬¬¬([a-zA-Z0-9]+)/g, m => m.toLowerCase())` with `¬` a
backtick: lower-case fence language tags. -/
def fenceLangLowerAux : Nat → List Char → List Char
  | 0, cs => cs
  | _ + 1, [] => []
  | f + 1, c :: cs =>
    if c = btick then
      match cs with
      | b2 :: b3 :: r1 =>
        if b2 = btick ∧ b3 = btick then
          let al := r1.takeWhile isAlnum
          let rest := r1.dropWhile isAlnum
          if al.length ≥ 1 then
            btick :: btick :: btick :: (al.map lowerChar ++ fenceLangLowerAux f rest)
          else c :: fenceLangLowerAux f cs
        else c :: fenceLangLowerAux f cs
      | _ => c :: fenceLangLowerAux f cs
    else c :: fenceLangLowerAux f cs

/-- Ordered candidates of the alternation `(\*\*|\*|__|_)` at the head of a
list, with the backtracking order the regex engine uses (two-character
delimiter first, then the one-character fallback). -/
def delimCands (cs : List Char) : List (List Char × List Char) :=
  match cs with
  | [] => []
  | c :: rest =>
    if c = '*' then
      match rest with
      | c2 :: rest2 =>
        if c2 = '*' then [(['*', '*'], rest2), (['*'], rest)] else [(['*'], rest)]
      | [] => [(['*'], rest)]
    else if c = '_' then
      match rest with
      | c2 :: rest2 =>
        if c2 = '_' then [(['_', '_'], rest2), (['_'], rest)] else [(['_'], rest)]
      | [] => [(['_'], rest)]
    else []

/-- Pass 16a, `.replace(/(\S)(\*\*|\*|__|_)(\S)/g, '$1 $2$3')`: insert a space
before a delimiter squeezed between two non-whitespace characters.  The scan
resumes after the matched `$3`. -/
def emphSpace1Aux : Nat → List Char → List Char
  | 0, cs => cs
  | _ + 1, [] => []
  | f + 1, c :: cs =>
    if isJsWs c = true then c :: emphSpace1Aux f cs
    else
      match (delimCands cs).find? (fun dr =>
          match dr.2 with
          | c3 :: _ => !isJsWs c3
          | [] => false) with
      | some (d, c3 :: r2) => c :: ' ' :: (d ++ c3 :: emphSpace1Aux f r2)
      | _ => c :: emphSpace1Aux f cs

/-- Pass 16b, `.replace(/(\S)(\*\*|\*|__|_)(\s)/g, '$1 $2$3')`. -/
def emphSpace2Aux : Nat → List Char → List Char
  | 0, cs => cs
  | _ + 1, [] => []
  | f + 1, c :: cs =>
    if isJsWs c = true then c :: emphSpace2Aux f cs
    else
      match (delimCands cs).find? (fun dr =>
          match dr.2 with
          | c3 :: _ => isJsWs c3
          | [] => false) with
      | some (d, c3 :: r2) => c :: ' ' :: (d ++ c3 :: emphSpace2Aux f r2)
      | _ => c :: emphSpace2Aux f cs

/-- Pass 16c, `.replace(/(\s)(\*\*|\*|__|_)(\S)/g, '$1$2 $3')`. -/
def emphSpace3Aux : Nat → List Char → List Char
  | 0, cs => cs
  | _ + 1, [] => []
  | f + 1, c :: cs =>
    if isJsWs c = true then
      match (delimCands cs).find? (fun dr =>
          match dr.2 with
          | c3 :: _ => !isJsWs c3
          | [] => false) with
      | some (d, c3 :: r2) => c :: (d ++ ' ' :: c3 :: emphSpace3Aux f r2)
      | _ => c :: emphSpace3Aux f cs
    else c :: emphSpace3Aux f cs

/-- Split at the first `](` pair, provided no newline occurs before it:
`some (before, after)` with the two-character separator dropped.  This is
where the lazy alt group of the image regex ends — the group may contain `]`
characters not followed by `(`, but cannot contain a newline. -/
def splitAtBracketParen : List Char → Option (List Char × List Char)
  | [] => none
  | c :: cs =>
    match c, cs with
    | ']', '(' :: r => some ([], r)
    | _, _ =>
      if c = '\n' then none
      else
        match splitAtBracketParen cs with
        | some (pre, post) => some (c :: pre, post)
        | none => none

/-- Pass 17, `.replace(/!\[(.*?)\]\((.*?)\)/g, (m,alt,src) =>
«![alt.trim()](src.trim())»)`: trim image alt text and URL.  `.` does not
match newlines; the lazy alt group ends at the first `](` pair and the lazy
src group at the first `)` (when the src group finds no `)` before a newline
no later `](` split can succeed either, so the whole attempt fails). -/
def imageAltTrimAux : Nat → List Char → List Char
  | 0, cs => cs
  | _ + 1, [] => []
  | f + 1, c :: cs =>
    if c = '!' then
      match cs with
      | '[' :: r1 =>
        match splitAtBracketParen r1 with
        | some (alt, r2) =>
          let src := r2.takeWhile (fun x => x ≠ ')' ∧ x ≠ '\n')
          let rb := r2.dropWhile (fun x => x ≠ ')' ∧ x ≠ '\n')
          match rb with
          | ')' :: r3 =>
            '!' :: '[' :: (jsTrimL alt ++ ']' :: '(' :: jsTrimL src ++ ')' ::
              imageAltTrimAux f r3)
          | _ => c :: imageAltTrimAux f cs
        | none => c :: imageAltTrimAux f cs
      | _ => c :: imageAltTrimAux f cs
    else c :: imageAltTrimAux f cs

/-- Pass 18, `.replace(/\n\s*[*+]\s+/g, '\n- ')`: standardize `*` and `+`
bullets to `-`. -/
def bulletsToDashAux : Nat → List Char → List Char
  | 0, cs => cs
  | _ + 1, [] => []
  | f + 1, c :: cs =>
    if c = '\n' then
      let r1 := cs.dropWhile isJsWs
      match r1 with
      | b :: r2 =>
        if b = '*' ∨ b = '+' then
          let ws2 := r2.takeWhile isJsWs
          let r3 := r2.dropWhile isJsWs
          if ws2.length ≥ 1 then '\n' :: '-' :: ' ' :: bulletsToDashAux f r3
          else c :: bulletsToDashAux f cs
        else c :: bulletsToDashAux f cs
      | _ => c :: bulletsToDashAux f cs
    else c :: bulletsToDashAux f cs

/-- Pass 19a, `.replace(/([^\n])\n¬¬¬/g, '$1\n\n¬¬¬')` with `¬` a backtick:
ensure a blank line before a fence. -/
def blankBeforeFenceAux : Nat → List Char → List Char
  | 0, cs => cs
  | _ + 1, [] => []
  | f + 1, c :: cs =>
    match cs with
    | a :: b1 :: b2 :: b3 :: r =>
      if c ≠ '\n' ∧ a = '\n' ∧ b1 = btick ∧ b2 = btick ∧ b3 = btick then
        c :: '\n' :: '\n' :: btick :: btick :: btick :: blankBeforeFenceAux f r
      else c :: blankBeforeFenceAux f cs
    | _ => c :: blankBeforeFenceAux f cs

/-- Pass 19b, `.replace(/¬¬¬\n([^\n])/g, '¬¬¬\n\n$1')` with `¬` a backtick:
ensure a blank line after a fence line. -/
def blankAfterFenceAux : Nat → List Char → List Char
  | 0, cs => cs
  | _ + 1, [] => []
  | f + 1, c :: cs =>
    if c = btick then
      match cs with
      | b2 :: b3 :: a :: d :: r =>
        if b2 = btick ∧ b3 = btick ∧ a = '\n' ∧ d ≠ '\n' then
          btick :: btick :: btick :: '\n' :: '\n' :: d :: blankAfterFenceAux f r
        else c :: blankAfterFenceAux f cs
      | _ => c :: blankAfterFenceAux f cs
    else c :: blankAfterFenceAux f cs

/-- Run a fuelled scanner exhaustively (every step consumes at least one
character, so the input length is enough fuel). -/
def runPass (g : Nat → List Char → List Char) (l : List Char) : List Char :=
  g l.length l

/-- Pass 14 with its initial (empty) original-line accumulator. -/
def orderedRenumber (l : List Char) : List Char := orderedRenumberAux l.length [] l

/-- `MarkdownConversionService.postProcessMarkdown`: the full chain of text
clean-up replacements, in source order, followed by the final `trim`.  An
empty input returns the empty string (`if (!markdown) return ''`). -/
def postProcessMarkdown (s : String) : String :=
  if s = "" then ""
  else
    ⟨jsTrimL
      (runPass blankAfterFenceAux
        (runPass blankBeforeFenceAux
          (runPass bulletsToDashAux
            (runPass imageAltTrimAux
              (runPass emphSpace3Aux
                (runPass emphSpace2Aux
                  (runPass emphSpace1Aux
                    (runPass fenceLangLowerAux
                      (orderedRenumber
                        (runPass inlineCodeTrimAux
                          (runPass linkTrimAux
                            (runPass headingGapAux
                              (runPass hrSpacingAux
                                (runPass blockquoteBlankAux
                                  (runPass nestedIndentAux
                                    (runPass pipeSpaceBeforeAux
                                      (runPass pipeSpaceAfterAux
                                        (trimLineEnds
                                          (runPass headingSpacingAux
                                            (runPass codeBlockSpacingAux
                                              (runPass fixListSpacingAux
                                                (runPass collapseBlankLinesAux
                                                  (normalizeEols
                                                    s.data)))))))))))))))))))))))⟩

/-!
## Front matter extraction

`MarkdownConversionService.extractFrontMatter` looks for the first match of
`/<!--\s*front-matter\s*\n([\s\S]*?)\n-->/i`, removes it from the HTML and
returns the trimmed capture.
-/

/-- Case-insensitive match of the literal letters `expected` (given in lower
case) at the head of `l`; returns the rest on success. -/
def matchCI : List Char → List Char → Option (List Char)
  | [], l => some l
  | _ :: _, [] => none
  | e :: es, c :: cs => if lowerChar c = e then matchCI es cs else none

/-- Split at the first occurrence of the four characters `\n-->`:
`some (before, after)` where the separator itself is dropped. -/
def splitAtNlArrow : List Char → Option (List Char × List Char)
  | [] => none
  | c :: cs =>
    match c, cs with
    | '\n', '-' :: '-' :: '>' :: r => some ([], r)
    | _, _ =>
      match splitAtNlArrow cs with
      | some (pre, post) => some (c :: pre, post)
      | none => none

/-- Suffixes of `l` that start right after one of its newlines, ordered from
the last newline to the first (the backtracking order of a greedy `\s*`
followed by a literal `\n`). -/
def afterNlSuffixes : List Char → List (List Char)
  | [] => []
  | c :: cs => afterNlSuffixes cs ++ (if c = '\n' then [cs] else [])

/-- Body of the front-matter regex after `<!--` has been consumed:
`\s*front-matter\s*\n([\s\S]*?)\n-->` starting at `r0`.  On success returns
`(capture, rest-after-match)`. -/
def frontMatterTail (r0 : List Char) : Option (List Char × List Char) :=
  let r1 := r0.dropWhile isJsWs
  match matchCI "front-matter".data r1 with
  | none => none
  | some r2 =>
    let ws2 := r2.takeWhile isJsWs
    let r3 := r2.dropWhile isJsWs
    (afterNlSuffixes ws2).firstM (fun suff => splitAtNlArrow (suff ++ r3))

/-- First match of the whole front-matter comment pattern in `cs`:
`some (before, capture, after)`. -/
def findFrontMatter : List Char → Option (List Char × List Char × List Char)
  | [] => none
  | c :: cs =>
    let tryHere :=
      match c, cs with
      | '<', '!' :: '-' :: '-' :: r0 =>
        match frontMatterTail r0 with
        | some (cap, rest) => some (([] : List Char), cap, rest)
        | none => none
      | _, _ => none
    match tryHere with
    | some res => some res
    | none =>
      match findFrontMatter cs with
      | some (pre, cap, post) => some (c :: pre, cap, post)
      | none => none

/-- `MarkdownConversionService.extractFrontMatter`: when the option is on and
the comment marker is found, remove the matched comment from the HTML and
return the trimmed capture; otherwise return the input unchanged. -/
def extractFrontMatter (preserveFM : Bool) (html : String) :
    String × Option String :=
  if !preserveFM then (html, none)
  else
    match findFrontMatter html.data with
    | none => (html, none)
    | some (pre, cap, post) => (⟨pre ++ post⟩, some ⟨jsTrimL cap⟩)

/-!
## Special-content preservation

`MarkdownConversionService.preserveSpecialContent` builds a DOM container
from the input, then performs three string-level regex replacements on a
LOCAL variable (inline math, block math, preserve-marked comments) and one
DOM mutation (special `pre` blocks) — and finally returns
`container.innerHTML`.  The string-level replacements therefore never reach
the returned HTML; only their placeholder-map entries survive.  The DOM
phase (container construction, `querySelectorAll('pre.mermaid, …')`
extraction and final serialization) is an external capability, passed in as
the function `domPreserve : String → Nat → ExtractResult` (original HTML and
current placeholder counter in, serialized container, special-block map
entries and updated counter out).
-/

/-- Result of one extraction phase: the rewritten text, the placeholder map
entries added (in insertion order) and the updated counter. -/
structure ExtractResult where
  out : List Char
  entries : List (String × String)
  ctr : Nat
deriving DecidableEq

/-- Inline-math phase, `html.replace(/\$([^$]+)\$/g, …)`: each `$…$` span is
replaced by `MATH_PLACEHOLDER_<n>` and recorded in the map. -/
def extractInlineMathAux : Nat → List Char → Nat → ExtractResult
  | 0, cs, k => ⟨cs, [], k⟩
  | _ + 1, [], k => ⟨[], [], k⟩
  | f + 1, c :: cs, k =>
    if c = '$' then
      let body := cs.takeWhile (fun x => x ≠ '$')
      let r1 := cs.dropWhile (fun x => x ≠ '$')
      match r1 with
      | '$' :: r2 =>
        if body.length ≥ 1 then
          let ph := "MATH_PLACEHOLDER_".data ++ natChars k
          let res := extractInlineMathAux f r2 (k + 1)
          ⟨ph ++ res.out, (⟨ph⟩, ⟨'$' :: body ++ ['$']⟩) :: res.entries, res.ctr⟩
        else
          let res := extractInlineMathAux f cs k
          ⟨c :: res.out, res.entries, res.ctr⟩
      | _ =>
        let res := extractInlineMathAux f cs k
        ⟨c :: res.out, res.entries, res.ctr⟩
    else
      let res := extractInlineMathAux f cs k
      ⟨c :: res.out, res.entries, res.ctr⟩

/-- Find the first `$$` in `l`; `some (before, after)`. -/
def splitAtDollarDollar : List Char → Option (List Char × List Char)
  | [] => none
  | c :: cs =>
    match c, cs with
    | '$', '$' :: r => some ([], r)
    | _, _ =>
      match splitAtDollarDollar cs with
      | some (pre, post) => some (c :: pre, post)
      | none => none

/-- Block-math phase, `html.replace(/\$\$([\s\S]+?)\$\$/g, …)`: each
`$$…$$` span is replaced by `MATH_BLOCK_PLACEHOLDER_<n>`.  The lazy body
needs at least one character, so the first body character `b0` is consumed
unconditionally and the closing `$$` is searched after it (a bare `$$$$`
does not match). -/
def extractBlockMathAux : Nat → List Char → Nat → ExtractResult
  | 0, cs, k => ⟨cs, [], k⟩
  | _ + 1, [], k => ⟨[], [], k⟩
  | f + 1, c :: cs, k =>
    match c, cs with
    | '$', '$' :: b0 :: r0 =>
      match splitAtDollarDollar r0 with
      | some (body1, rest) =>
        let ph := "MATH_BLOCK_PLACEHOLDER_".data ++ natChars k
        let res := extractBlockMathAux f rest (k + 1)
        ⟨ph ++ res.out,
          (⟨ph⟩, ⟨'$' :: '$' :: b0 :: (body1 ++ '$' :: '$' :: [])⟩) :: res.entries,
          res.ctr⟩
      | none =>
        let res := extractBlockMathAux f cs k
        ⟨c :: res.out, res.entries, res.ctr⟩
    | _, _ =>
      let res := extractBlockMathAux f cs k
      ⟨c :: res.out, res.entries, res.ctr⟩

/-- Find the first `-->` in `l`; `some (before, after)`. -/
def splitAtArrow : List Char → Option (List Char × List Char)
  | [] => none
  | c :: cs =>
    match c, cs with
    | '-', '-' :: '>' :: r => some ([], r)
    | _, _ =>
      match splitAtArrow cs with
      | some (pre, post) => some (c :: pre, post)
      | none => none

/-- Preserve-comment phase,
`html.replace(/<!--\s*@preserve\s*([\s\S]*?)-->/g, …)`: each marked comment
is replaced by `COMMENT_PLACEHOLDER_<n>`, with the TRIMMED capture as map
value. -/
def extractPreserveCommentsAux : Nat → List Char → Nat → ExtractResult
  | 0, cs, k => ⟨cs, [], k⟩
  | _ + 1, [], k => ⟨[], [], k⟩
  | f + 1, c :: cs, k =>
    match c, cs with
    | '<', '!' :: '-' :: '-' :: r0 =>
      let r1 := r0.dropWhile isJsWs
      match matchCI "@preserve".data r1 with
      | some r2 =>
        match splitAtArrow r2 with
        | some (cap, rest) =>
          let ph := "COMMENT_PLACEHOLDER_".data ++ natChars k
          let res := extractPreserveCommentsAux f rest (k + 1)
          ⟨ph ++ res.out, (⟨ph⟩, ⟨jsTrimL cap⟩) :: res.entries, res.ctr⟩
        | none =>
          let res := extractPreserveCommentsAux f cs k
          ⟨c :: res.out, res.entries, res.ctr⟩
      | none =>
        let res := extractPreserveCommentsAux f cs k
        ⟨c :: res.out, res.entries, res.ctr⟩
    | _, _ =>
      let res := extractPreserveCommentsAux f cs k
      ⟨c :: res.out, res.entries, res.ctr⟩

/-- `MarkdownConversionService.preserveSpecialContent`.  The four extraction
phases run in source order, threading the placeholder counter; the returned
HTML, however, is `container.innerHTML` — the serialization of the container
built from the ORIGINAL input (plus the special-block mutations performed by
`domPreserve`): the results of the three string-level phases are discarded,
exactly as in the source, where the local `html` variable is never written
back into the container. -/
def preserveSpecialContent (domPreserve : String → Nat → ExtractResult)
    (html : String) : String × List (String × String) :=
  if html = "" then ("", [])
  else
    let r1 := extractInlineMathAux html.data.length html.data 0
    let r2 := extractBlockMathAux r1.out.length r1.out r1.ctr
    let rd := domPreserve html r2.ctr
    let r3 := extractPreserveCommentsAux r2.out.length r2.out rd.ctr
    (⟨rd.out⟩, r1.entries ++ r2.entries ++ rd.entries ++ r3.entries)

/-- The `domPreserve` capability for HTML that contains none of the special
`pre` blocks (`pre.mermaid, pre.math, pre.graphviz, pre[data-preserve]`) and
whose serialization round-trips: the container is left unmutated, so
`container.innerHTML` is the original HTML. -/
def domPreserveId (html : String) (k : Nat) : ExtractResult := ⟨html.data, [], k⟩

/-!
## Restoration of preserved content
-/

/-- JavaScript `String.prototype.replace` with a STRING pattern: replace the
first occurrence only. -/
def replaceFirst (pat repl : List Char) : List Char → List Char
  | [] => []
  | c :: cs =>
    if pat.isPrefixOf (c :: cs) ∧ pat.length ≥ 1 then
      repl ++ (c :: cs).drop pat.length
    else c :: replaceFirst pat repl cs

/-- `MarkdownConversionService.restoreSpecialContent`: fold over the map in
insertion order, replacing the first occurrence of each placeholder with a
category-dependent rendering; the map is cleared afterwards.  When the
markdown is empty or the map is empty the function returns early WITHOUT
clearing the map.  Restoring a `SPECIAL_BLOCK_PLACEHOLDER_` entry re-parses
the stored outer HTML in the DOM, an external capability passed as `rsb`.
Returns the restored markdown and the final map state. -/
def restoreSpecialContent (rsb : String → String)
    (m : List (String × String)) (md : String) :
    String × List (String × String) :=
  if md = "" ∨ m = [] then (md, m)
  else
    let res := m.foldl (fun r kv =>
      if "MATH_PLACEHOLDER_".data.isPrefixOf kv.1.data then
        replaceFirst kv.1.data kv.2.data r
      else if "MATH_BLOCK_PLACEHOLDER_".data.isPrefixOf kv.1.data then
        replaceFirst kv.1.data ('\n' :: '\n' :: kv.2.data ++ ['\n', '\n']) r
      else if "SPECIAL_BLOCK_PLACEHOLDER_".data.isPrefixOf kv.1.data then
        replaceFirst kv.1.data (rsb kv.2).data r
      else if "COMMENT_PLACEHOLDER_".data.isPrefixOf kv.1.data then
        replaceFirst kv.1.data ("<!-- ".data ++ kv.2.data ++ " -->".data) r
      else r) md.data
    (⟨res⟩, [])

/-!
## The conversion pipeline

`MarkdownConversionService.convertToMarkdown` orchestrates the passes.  The
DOM-dependent steps are capabilities collected in `ConversionEnv`:

* `domPreserve` — the special-`pre`-block phase of `preserveSpecialContent`;
* `handleUnusualStructures` — the Unusual-Structure Rewriter (definition
  lists, details/summary, figures, orphaned list items, citations, embedded
  media), a DOM pass with an internal catch that returns its input on
  failure;
* `preProcessComplexStructures` — the Structure Normalizer
  (`processTable`/`processNestedList`/`processDefinitionList`/
  `processBlockquote`), likewise internally caught;
* `turndown` — the rule-based tree converter; the one pipeline step whose
  exceptions reach the outer `try`, hence `Except`;
* `restoreSpecialBlock` — DOM re-parsing used when restoring a preserved
  special block.

The surrounding options record keeps the two option fields this orchestration
consults (`preserveFrontMatter` gates front-matter extraction,
`processComplexStructures` gates the Structure Normalizer); the remaining
options are consumed inside the Turndown capability and the custom rules.
Error logging (`logError`) only appends to an in-memory list and writes to
the console, so it is modelled as a no-op.
-/

structure ConversionEnv where
  domPreserve : String → Nat → ExtractResult
  handleUnusualStructures : String → String
  preProcessComplexStructures : String → String
  turndown : String → Except String String
  restoreSpecialBlock : String → String

structure MarkdownOptions where
  preserveFrontMatter : Bool := true
  processComplexStructures : Bool := true

/-- The string handed to the tree converter: front-matter removal, then
special-content preservation, then the Unusual-Structure Rewriter, then —
only when `processComplexStructures` is on — the Structure Normalizer. -/
def pipelineInput (env : ConversionEnv) (opts : MarkdownOptions)
    (html : String) : String :=
  let h2 := env.handleUnusualStructures
    (preserveSpecialContent env.domPreserve
      (extractFrontMatter opts.preserveFrontMatter html).1).1
  if opts.processComplexStructures then env.preProcessComplexStructures h2
  else h2

/-- The placeholder map that `preserveSpecialContent` leaves on the instance
for this input. -/
def preservedMap (env : ConversionEnv) (opts : MarkdownOptions)
    (html : String) : List (String × String) :=
  (preserveSpecialContent env.domPreserve
    (extractFrontMatter opts.preserveFrontMatter html).1).2

/-- `MarkdownConversionService.convertToMarkdown`.  The instance field
`this._preservedContent` is threaded explicitly: `m0` is its state on entry
and the second component of the result its state on exit.  The whole body is
one `try`: an empty or whitespace-only input returns `''` immediately, a
`turndown` failure is caught at the boundary and yields the original HTML
prefixed with the failure comment, and otherwise the converted markdown is
restored, post-processed and (when present) prefixed with front-matter
fences. -/
def convertToMarkdown (env : ConversionEnv) (opts : MarkdownOptions)
    (m0 : List (String × String)) (html : String) :
    String × List (String × String) :=
  if html = "" ∨ jsTrim html = "" then ("", m0)
  else
    match env.turndown (pipelineInput env opts html) with
    | Except.error _ =>
      ("<!-- Markdown conversion failed -->\n\n" ++ html,
        preservedMap env opts html)
    | Except.ok md =>
      let rest := restoreSpecialContent env.restoreSpecialBlock
        (preservedMap env opts html) md
      let cleaned := postProcessMarkdown rest.1
      match (extractFrontMatter opts.preserveFrontMatter html).2 with
      | some f => ("---\n" ++ f ++ "\n---\n\n" ++ cleaned, rest.2)
      | none => (cleaned, rest.2)

/-- The pipeline as the spec's option table describes it for
`processComplexStructures = false`: identical to `convertToMarkdown` except
that the Structure Normalizer is skipped while the Unusual-Structure
Rewriter still runs.  Used to state what the code actually does when the
option is off. -/
def convertSkippingNormalizer (env : ConversionEnv) (opts : MarkdownOptions)
    (m0 : List (String × String)) (html : String) :
    String × List (String × String) :=
  if html = "" ∨ jsTrim html = "" then ("", m0)
  else
    match env.turndown
        (env.handleUnusualStructures
          (preserveSpecialContent env.domPreserve
            (extractFrontMatter opts.preserveFrontMatter html).1).1) with
    | Except.error _ =>
      ("<!-- Markdown conversion failed -->\n\n" ++ html,
        preservedMap env opts html)
    | Except.ok md =>
      let rest := restoreSpecialContent env.restoreSpecialBlock
        (preservedMap env opts html) md
      let cleaned := postProcessMarkdown rest.1
      match (extractFrontMatter opts.preserveFrontMatter html).2 with
      | some f => ("---\n" ++ f ++ "\n---\n\n" ++ cleaned, rest.2)
      | none => (cleaned, rest.2)

/-!
## Table structure normalization

`complexStructureService.normalizeTableStructure` works on a table node.  A
table is modelled by its header section (if any), its direct `tr` children
and its body section (if any), with document order
`thead rows ++ direct rows ++ tbody rows` — the order `querySelectorAll('tr')`
returns.  A cell is a header flag plus its inner HTML (converting a `td` to a
`th` copies `innerHTML` only, which the model reflects).
-/

structure Cell where
  th : Bool
  html : String
deriving DecidableEq

/-- A table row is its list of cells. -/
abbrev Row := List Cell

structure TableModel where
  thead : Option (List Row)
  direct : List Row
  tbody : Option (List Row)
deriving DecidableEq

/-- `row.querySelector('th') !== null`. -/
def hasTh (r : Row) : Bool := r.any (fun c => c.th)

/-- The clone-and-convert step of `normalizeTableStructure`: every `td` of
the cloned first row becomes a `th` with the same inner HTML. -/
def convertCellsToTh (r : Row) : Row := r.map (fun c => { th := true, html := c.html })

/-- All `tr` descendants in document order (`table.querySelectorAll('tr')`). -/
def tableRows (t : TableModel) : List Row :=
  t.thead.getD [] ++ t.direct ++ t.tbody.getD []

/-- Drop the first row of a headerless table (it lives either among the
direct rows or, failing that, at the front of the body section);
`appendChild` moving it into the new `thead` removes it from there. -/
def removeFirstRow (direct : List Row) (tb : Option (List Row)) :
    List Row × Option (List Row) :=
  match direct with
  | _ :: rs => (rs, tb)
  | [] =>
    match tb with
    | some (_ :: rs) => ([], some rs)
    | _ => ([], tb)

/-- `complexStructureService.normalizeTableStructure`.  Step 1: if there is
no `thead` and at least one row, either MOVE the first row into a new
`thead` (when it already has `th` cells) or put a `th`-CONVERTED CLONE of it
there, leaving the original in place.  Step 2: if there is no `tbody`,
create one and move into it every row of the static `querySelectorAll('tr')`
snapshot whose parent is not the `thead` — positionally, everything except
the leading `headCount` rows held by the `thead`. -/
def normalizeTableStructure (t : TableModel) : TableModel :=
  let rows := tableRows t
  let step1 : TableModel × Nat :=
    match t.thead with
    | some hs => (t, hs.length)
    | none =>
      match rows with
      | [] => (t, 0)
      | r0 :: _ =>
        if hasTh r0 then
          let rem := removeFirstRow t.direct t.tbody
          ({ thead := some [r0], direct := rem.1, tbody := rem.2 }, 1)
        else
          ({ thead := some [convertCellsToTh r0], direct := t.direct,
             tbody := t.tbody }, 0)
  let t1 := step1.1
  match t1.tbody with
  | some _ => t1
  | none => { thead := t1.thead, direct := [], tbody := some (rows.drop step1.2) }

/-!
## Definition-list rewriting

The `dl` branch of `MarkdownConversionService.handleUnusualStructures`: for
each `dt` (static `querySelectorAll` snapshot, in order), a `while` loop
walks the following `dd` siblings; each iteration builds one paragraph
holding the bold term and the text `': '`, then runs the content-copy loop

    while (desc.firstChild) {
      paragraph.appendChild(desc.firstChild.cloneNode(true));
    }

which appends a CLONE of the description's first child and never removes
the original — `desc.firstChild` does not change, so this inner loop exits
only when the description has no children at all, and runs forever
otherwise.  Afterwards the `dd` is removed and the walk continues; after
the walk the `dt` is removed, and at the end the `dl` is replaced by the
accumulated fragment, discarding any children never visited.

A description element is modelled by the list of (serialized) child nodes
it holds, and every loop by a fuelled runner: `some` is the result of a run
that exits within the given number of iterations, `none` means the run is
still going after that many iterations — so `(∀ fuel, … = none)` states
that the program never finishes.
-/

inductive DlChild where
  | dt (content : String)
  | dd (children : List String)
deriving DecidableEq

/-- A generated paragraph: the term text and the contents the copy loop
appended after the `': '` separator (one entry per appended clone). -/
abbrev DlPar := String × List String

/-- The content-copy loop at lines 300-302, observed for `fuel` iterations.
The description's children are the loop condition AND are never changed by
the body (only a clone of the first child is appended to the paragraph), so
the loop exits — immediately — only when the description has no children. -/
def ddContentLoop : Nat → List String → List String → Option (List String)
  | _, [], par => some par
  | 0, _ :: _, _ => none
  | f + 1, c :: cs, par => ddContentLoop f (c :: cs) (par ++ [c])

/-- The `while (desc && desc.tagName === 'dd')` walk for one term: one
paragraph per following `dd` (its content built by the copy loop), plus the
remaining children; `none` when some copy loop never exits. -/
def collectDds (fuel : Nat) (term : String) :
    List DlChild → Option (List DlPar × List DlChild)
  | DlChild.dd ch :: rest =>
    match ddContentLoop fuel ch [] with
    | none => none
    | some content =>
      match collectDds fuel term rest with
      | none => none
      | some (ps, r) => some ((term, content) :: ps, r)
  | rest => some ([], rest)

/-- The full `dl` rewrite over the element children, in order (auxiliary;
the second fuel bounds the outer walk, which consumes at least one child
per step). -/
def processDefinitionListsAux (inner : Nat) : Nat → List DlChild → Option (List DlPar)
  | 0, _ => none
  | _ + 1, [] => some []
  | f + 1, DlChild.dd _ :: rest => processDefinitionListsAux inner f rest
  | f + 1, DlChild.dt t :: rest =>
    match collectDds inner t rest with
    | none => none
    | some (ps, r) =>
      match processDefinitionListsAux inner f r with
      | none => none
      | some qs => some (ps ++ qs)

/-- The full `dl` rewrite, observed for `fuel` iterations of each copy loop
(the outer walk gets enough fuel to visit every child, so `none` arises
exactly from a copy loop that is still running). -/
def processDefinitionLists (fuel : Nat) (cs : List DlChild) :
    Option (List DlPar) :=
  processDefinitionListsAux fuel (cs.length + 1) cs

/-!
## Embedded media rewriting

The `iframe`/`video`/`audio` branches of `handleUnusualStructures`.  Each
element either stays in the DOM unchanged or is replaced by a wrapper `div`
with a class name and (serialized) inner HTML.
-/

inductive MediaRewrite where
  | unchanged
  | replacedDiv (className : String) (innerHTML : String)
deriving DecidableEq

/-- The `iframe` branch: `src = getAttribute('src') || ''`; only an iframe
with a non-empty `src` is replaced (the title paragraph, when present, is
appended to the wrapper BEFORE the link paragraph).  `title` is
`getAttribute('title')`, `none` when absent. -/
def rewriteIframe (src : String) (title : Option String) : MediaRewrite :=
  if src ≠ "" then
    MediaRewrite.replacedDiv "embedded-content"
      ((match title with
        | some t => "<p><em>" ++ t ++ "</em></p>"
        | none => "") ++
        "<p><strong>Embedded content:</strong> <a href=\"" ++ src ++ "\">" ++
        src ++ "</a></p>")
  else MediaRewrite.unchanged

/-- The `video` branch: the element is ALWAYS replaced.  `poster` is the
poster attribute (or empty), `sources` the `src` attributes of its `source`
children (empty string for a missing attribute); only the FIRST source is
consulted. -/
def rewriteVideo (poster : String) (sources : List String) : MediaRewrite :=
  let sourceUrl := sources.head?.getD ""
  MediaRewrite.replacedDiv "video-content"
    ((if poster ≠ "" then
        "<p><img src=\"" ++ poster ++ "\" alt=\"Video thumbnail\"></p>"
      else "") ++
      (if sourceUrl ≠ "" then
        "<p><strong>Video:</strong> <a href=\"" ++ sourceUrl ++ "\">" ++
          sourceUrl ++ "</a></p>"
      else ""))

/-- The `audio` branch: the element is always replaced; with no resolvable
source the wrapper carries an explicit unavailability note. -/
def rewriteAudioEl (sources : List String) : MediaRewrite :=
  let sourceUrl := sources.head?.getD ""
  MediaRewrite.replacedDiv "audio-content"
    (if sourceUrl ≠ "" then
      "<p><strong>Audio:</strong> <a href=\"" ++ sourceUrl ++ "\">" ++
        sourceUrl ++ "</a></p>"
    else "<p><em>Audio content (source not available)</em></p>")

/-!
## Concrete environments used by witnesses and counterexamples
-/

/-- Default options (`DEFAULT_MARKDOWN_OPTIONS` restricted to the fields the
orchestration consults). -/
def defaultOpts : MarkdownOptions := {}

/-- Options with complex-structure processing turned off. -/
def optsNoComplex : MarkdownOptions := { processComplexStructures := false }

/-- An environment whose tree converter throws on every input; the other
capabilities are inert. -/
def envErr : ConversionEnv :=
  { domPreserve := domPreserveId
    handleUnusualStructures := id
    preProcessComplexStructures := id
    turndown := fun _ => Except.error "deliberate failure"
    restoreSpecialBlock := id }

/-- An environment whose Unusual-Structure Rewriter marks its input with the
visible prefix `HU:` (standing for an observable DOM rewrite), with an
identity tree converter. -/
def envHU : ConversionEnv :=
  { domPreserve := domPreserveId
    handleUnusualStructures := fun s => "HU:" ++ s
    preProcessComplexStructures := id
    turndown := Except.ok
    restoreSpecialBlock := id }

/-!
## Plain text is a fixed point of the post-processor

A "plain" string — lowercase ASCII letters and single spaces, not starting
or ending with a space — contains none of the characters any pass of the
post-processor triggers on, so every pass leaves it unchanged.
-/

/-- Lowercase ASCII letter or space. -/
def plainChar (c : Char) : Bool := c == ' ' || isLowerAscii c

/-- Plain text: only plain characters, and no leading or trailing space. -/
def plainText (s : String) : Bool :=
  s.data.all plainChar && s.data.head?.getD 'x' != ' ' &&
    s.data.getLast?.getD 'x' != ' '

theorem plain_ne_of {c : Char} (h : plainChar c = true) {d : Char}
    (hd : plainChar d = false) : c ≠ d := by
  intro he
  subst he
  rw [h] at hd
  exact Bool.noConfusion hd

theorem lower_not_ws {c : Char} (h : isLowerAscii c = true) : isJsWs c = false := by
  cases hw : isJsWs c with
  | false => rfl
  | true =>
    exfalso
    simp only [isJsWs, Bool.or_eq_true, beq_iff_eq] at hw
    have hw2 : c = ' ' ∨ c = '\t' ∨ c = '\n' ∨ c = '\r' ∨ c = '\x0b' ∨
        c = '\x0c' ∨ c = '\u00A0' := by tauto
    rcases hw2 with rfl | rfl | rfl | rfl | rfl | rfl | rfl <;>
      exact absurd h (by decide)

theorem plain_not_ws {c : Char} (h : plainChar c = true) (hs : c ≠ ' ') :
    isJsWs c = false := by
  simp only [plainChar, Bool.or_eq_true, beq_iff_eq] at h
  rcases h with rfl | h
  · exact absurd rfl hs
  · exact lower_not_ws h

theorem plain_spacetab {c : Char} (h : plainChar c = true) (hs : c ≠ ' ') :
    isSpaceTab c = false := by
  simp only [plainChar, Bool.or_eq_true, beq_iff_eq] at h
  rcases h with rfl | h
  · exact absurd rfl hs
  · cases hw : isSpaceTab c with
    | false => rfl
    | true =>
      exfalso
      simp only [isSpaceTab, Bool.or_eq_true, beq_iff_eq] at hw
      rcases hw with rfl | rfl <;> exact absurd h (by decide)

theorem all_tail {q : Char → Bool} {c : Char} {l : List Char}
    (h : (c :: l).all q = true) : l.all q = true := by
  simp only [List.all_cons, Bool.and_eq_true] at h
  exact h.2

theorem all_head {q : Char → Bool} {c : Char} {l : List Char}
    (h : (c :: l).all q = true) : q c = true := by
  simp only [List.all_cons, Bool.and_eq_true] at h
  exact h.1

theorem all_dropWhile {p q : Char → Bool} {l : List Char}
    (h : l.all q = true) : (l.dropWhile p).all q = true := by
  induction l with
  | nil => exact h
  | cons c cs ih =>
    by_cases hp : p c = true
    · rw [List.dropWhile_cons_of_pos hp]
      exact ih (all_tail h)
    · rw [List.dropWhile_cons_of_neg hp]
      exact h

theorem dropWhile_length_le {p : Char → Bool} (l : List Char) :
    (l.dropWhile p).length ≤ l.length := by
  induction l with
  | nil => exact Nat.le_refl 0
  | cons c cs ih =>
    by_cases hp : p c = true
    · rw [List.dropWhile_cons_of_pos hp]
      exact Nat.le_trans ih (Nat.le_succ _)
    · rw [List.dropWhile_cons_of_neg hp]

theorem normalizeEols_plain {cs : List Char} (h : cs.all plainChar = true) :
    normalizeEols cs = cs := by
  induction cs with
  | nil => rfl
  | cons c cs ih =>
    cases cs with
    | nil => rfl
    | cons c2 cs2 =>
      have hc : c ≠ '\r' := plain_ne_of (all_head h) (by decide)
      have hrec : normalizeEols (c2 :: cs2) = c2 :: cs2 := ih (all_tail h)
      simp only [normalizeEols]
      rw [if_neg (fun hco => hc hco.1), hrec]

theorem collapseBlankLinesAux_plain :
    ∀ f (cs : List Char), cs.length ≤ f → cs.all plainChar = true →
      collapseBlankLinesAux f cs = cs := by
  intro f
  induction f with
  | zero => intro cs _ _; rfl
  | succ f ih =>
    intro cs hl hp
    cases cs with
    | nil => rfl
    | cons c cs =>
      have hne : c ≠ '\n' := plain_ne_of (all_head hp) (by decide)
      have hr : collapseBlankLinesAux f cs = cs :=
        ih cs (Nat.le_of_succ_le_succ hl) (all_tail hp)
      simp only [collapseBlankLinesAux, if_neg hne, hr]

theorem fixListSpacingAux_plain :
    ∀ f (cs : List Char), cs.length ≤ f → cs.all plainChar = true →
      fixListSpacingAux f cs = cs := by
  intro f
  induction f with
  | zero => intro cs _ _; rfl
  | succ f ih =>
    intro cs hl hp
    cases cs with
    | nil => rfl
    | cons c cs =>
      have hne : c ≠ '\n' := plain_ne_of (all_head hp) (by decide)
      have hr : fixListSpacingAux f cs = cs :=
        ih cs (Nat.le_of_succ_le_succ hl) (all_tail hp)
      simp only [fixListSpacingAux, if_neg hne, hr]

theorem codeBlockSpacingAux_plain :
    ∀ f (cs : List Char), cs.length ≤ f → cs.all plainChar = true →
      codeBlockSpacingAux f cs = cs := by
  intro f
  induction f with
  | zero => intro cs _ _; rfl
  | succ f ih =>
    intro cs hl hp
    cases cs with
    | nil => rfl
    | cons c cs =>
      have hne : c ≠ '\n' := plain_ne_of (all_head hp) (by decide)
      have hr : codeBlockSpacingAux f cs = cs :=
        ih cs (Nat.le_of_succ_le_succ hl) (all_tail hp)
      simp only [codeBlockSpacingAux, if_neg hne, hr]

theorem headingSpacingAux_plain :
    ∀ f (cs : List Char), cs.length ≤ f → cs.all plainChar = true →
      headingSpacingAux f cs = cs := by
  intro f
  induction f with
  | zero => intro cs _ _; rfl
  | succ f ih =>
    intro cs hl hp
    cases cs with
    | nil => rfl
    | cons c cs =>
      have hne : c ≠ '\n' := plain_ne_of (all_head hp) (by decide)
      have hr : headingSpacingAux f cs = cs :=
        ih cs (Nat.le_of_succ_le_succ hl) (all_tail hp)
      simp only [headingSpacingAux, if_neg hne, hr]

theorem splitLines_plain {cs : List Char} (h : cs.all plainChar = true) :
    splitLines cs = [cs] := by
  induction cs with
  | nil => rfl
  | cons c cs ih =>
    have hne : c ≠ '\n' := plain_ne_of (all_head h) (by decide)
    simp only [splitLines, if_neg hne, ih (all_tail h)]

theorem trimLineEnd_plain {cs : List Char} (h : cs.all plainChar = true)
    (hlast : cs.getLast?.getD 'x' ≠ ' ') : trimLineEnd cs = cs := by
  unfold trimLineEnd
  cases hrev : cs.reverse with
  | nil =>
    have : cs = [] := by
      cases cs with
      | nil => rfl
      | cons a l => exact absurd hrev (by simp)
    subst this
    rfl
  | cons d r =>
    have hd_mem : d ∈ cs := by
      rw [← List.mem_reverse, hrev]
      exact List.mem_cons_self d r
    have hdp : plainChar d = true := by
      rw [List.all_eq_true] at h
      exact h d hd_mem
    have hdlast : cs.getLast? = some d := by
      rw [← List.head?_reverse, hrev]
      rfl
    have hdne : d ≠ ' ' := by
      rw [hdlast] at hlast
      exact hlast
    have hdst : isSpaceTab d = false := plain_spacetab hdp hdne
    have hneg : ¬ (isSpaceTab d = true) := by simp [hdst]
    rw [List.dropWhile_cons_of_neg hneg]
    rw [← hrev]
    rw [List.reverse_reverse]

theorem trimLineEnds_plain {cs : List Char} (h : cs.all plainChar = true)
    (hlast : cs.getLast?.getD 'x' ≠ ' ') : trimLineEnds cs = cs := by
  unfold trimLineEnds
  rw [splitLines_plain h]
  simp only [List.map_cons, List.map_nil]
  rw [trimLineEnd_plain h hlast]
  rfl

theorem pipeSpaceAfterAux_plain :
    ∀ f (cs : List Char), cs.length ≤ f → cs.all plainChar = true →
      pipeSpaceAfterAux f cs = cs := by
  intro f
  induction f with
  | zero => intro cs _ _; rfl
  | succ f ih =>
    intro cs hl hp
    cases cs with
    | nil => rfl
    | cons c cs =>
      have hne : c ≠ '|' := plain_ne_of (all_head hp) (by decide)
      have hr : pipeSpaceAfterAux f cs = cs :=
        ih cs (Nat.le_of_succ_le_succ hl) (all_tail hp)
      simp only [pipeSpaceAfterAux, if_neg hne, hr]

theorem pipeSpaceBeforeAux_plain :
    ∀ f (cs : List Char), cs.length ≤ f → cs.all plainChar = true →
      pipeSpaceBeforeAux f cs = cs := by
  intro f
  induction f with
  | zero => intro cs _ _; rfl
  | succ f ih =>
    intro cs hl hp
    cases cs with
    | nil => rfl
    | cons c cs =>
      have hr : pipeSpaceBeforeAux f cs = cs :=
        ih cs (Nat.le_of_succ_le_succ hl) (all_tail hp)
      by_cases hst : isSpaceTab c = true
      · have hpos : (c :: cs).dropWhile isSpaceTab = cs.dropWhile isSpaceTab :=
          List.dropWhile_cons_of_pos hst
        have hall : ((c :: cs).dropWhile isSpaceTab).all plainChar = true :=
          all_dropWhile hp
        have hlen : ((c :: cs).dropWhile isSpaceTab).length ≤ f := by
          rw [hpos]
          exact Nat.le_trans (dropWhile_length_le cs) (Nat.le_of_succ_le_succ hl)
        have hjoin :
            (c :: cs).takeWhile isSpaceTab ++ (c :: cs).dropWhile isSpaceTab =
              c :: cs := List.takeWhile_append_dropWhile isSpaceTab (c :: cs)
        cases hdw : (c :: cs).dropWhile isSpaceTab with
        | nil =>
          have hnil : pipeSpaceBeforeAux f ([] : List Char) = [] := by
            cases f <;> rfl
          simp only [pipeSpaceBeforeAux, if_pos hst, hdw, hnil, List.append_nil]
          rw [← List.append_nil ((c :: cs).takeWhile isSpaceTab), ← hdw, hjoin]
        | cons d r2 =>
          have hdne : d ≠ '|' := by
            have : plainChar d = true := by
              rw [hdw] at hall
              exact all_head hall
            exact plain_ne_of this (by decide)
          have hr2 : pipeSpaceBeforeAux f (d :: r2) = d :: r2 := by
            rw [← hdw]
            rw [hdw] at hall hlen ⊢
            exact ih (d :: r2) hlen hall
          simp only [pipeSpaceBeforeAux, if_pos hst, hdw, if_neg hdne, hr2]
          rw [← hdw, hjoin]
      · have hne : isSpaceTab c ≠ true := hst
        simp only [pipeSpaceBeforeAux, if_neg hne, hr]

theorem nestedIndentAux_plain :
    ∀ f (cs : List Char), cs.length ≤ f → cs.all plainChar = true →
      nestedIndentAux f cs = cs := by
  intro f
  induction f with
  | zero => intro cs _ _; rfl
  | succ f ih =>
    intro cs hl hp
    cases cs with
    | nil => rfl
    | cons c cs =>
      have hne : c ≠ '\n' := plain_ne_of (all_head hp) (by decide)
      have hr : nestedIndentAux f cs = cs :=
        ih cs (Nat.le_of_succ_le_succ hl) (all_tail hp)
      simp only [nestedIndentAux, if_neg hne, hr]

theorem blockquoteBlankAux_plain :
    ∀ f (cs : List Char), cs.length ≤ f → cs.all plainChar = true →
      blockquoteBlankAux f cs = cs := by
  intro f
  induction f with
  | zero => intro cs _ _; rfl
  | succ f ih =>
    intro cs hl hp
    cases cs with
    | nil => rfl
    | cons c cs =>
      have hne : c ≠ '\n' := plain_ne_of (all_head hp) (by decide)
      have hr : blockquoteBlankAux f cs = cs :=
        ih cs (Nat.le_of_succ_le_succ hl) (all_tail hp)
      simp only [blockquoteBlankAux, if_neg hne, hr]

theorem hrSpacingAux_plain :
    ∀ f (cs : List Char), cs.length ≤ f → cs.all plainChar = true →
      hrSpacingAux f cs = cs := by
  intro f
  induction f with
  | zero => intro cs _ _; rfl
  | succ f ih =>
    intro cs hl hp
    cases cs with
    | nil => rfl
    | cons c cs =>
      have hne : c ≠ '\n' := plain_ne_of (all_head hp) (by decide)
      have hr : hrSpacingAux f cs = cs :=
        ih cs (Nat.le_of_succ_le_succ hl) (all_tail hp)
      simp only [hrSpacingAux, if_neg hne, hr]

theorem headingGapAux_plain :
    ∀ f (cs : List Char), cs.length ≤ f → cs.all plainChar = true →
      headingGapAux f cs = cs := by
  intro f
  induction f with
  | zero => intro cs _ _; rfl
  | succ f ih =>
    intro cs hl hp
    cases cs with
    | nil => rfl
    | cons c cs =>
      have hne : c ≠ '\n' := plain_ne_of (all_head hp) (by decide)
      have hr : headingGapAux f cs = cs :=
        ih cs (Nat.le_of_succ_le_succ hl) (all_tail hp)
      simp only [headingGapAux, if_neg hne, hr]

theorem linkTrimAux_plain :
    ∀ f (cs : List Char), cs.length ≤ f → cs.all plainChar = true →
      linkTrimAux f cs = cs := by
  intro f
  induction f with
  | zero => intro cs _ _; rfl
  | succ f ih =>
    intro cs hl hp
    cases cs with
    | nil => rfl
    | cons c cs =>
      have hne : c ≠ '[' := plain_ne_of (all_head hp) (by decide)
      have hr : linkTrimAux f cs = cs :=
        ih cs (Nat.le_of_succ_le_succ hl) (all_tail hp)
      simp only [linkTrimAux, if_neg hne, hr]

theorem inlineCodeTrimAux_plain :
    ∀ f (cs : List Char), cs.length ≤ f → cs.all plainChar = true →
      inlineCodeTrimAux f cs = cs := by
  intro f
  induction f with
  | zero => intro cs _ _; rfl
  | succ f ih =>
    intro cs hl hp
    cases cs with
    | nil => rfl
    | cons c cs =>
      have hne : c ≠ btick := plain_ne_of (all_head hp) (by decide)
      have hr : inlineCodeTrimAux f cs = cs :=
        ih cs (Nat.le_of_succ_le_succ hl) (all_tail hp)
      simp only [inlineCodeTrimAux, if_neg hne, hr]

theorem orderedRenumberAux_plain :
    ∀ f (acc cs : List Char), cs.length ≤ f → cs.all plainChar = true →
      orderedRenumberAux f acc cs = cs := by
  intro f
  induction f with
  | zero => intro acc cs _ _; rfl
  | succ f ih =>
    intro acc cs hl hp
    cases cs with
    | nil => rfl
    | cons c cs =>
      have hne : c ≠ '\n' := plain_ne_of (all_head hp) (by decide)
      have hr : orderedRenumberAux f (acc ++ [c]) cs = cs :=
        ih (acc ++ [c]) cs (Nat.le_of_succ_le_succ hl) (all_tail hp)
      simp only [orderedRenumberAux, if_neg hne, hr]

theorem fenceLangLowerAux_plain :
    ∀ f (cs : List Char), cs.length ≤ f → cs.all plainChar = true →
      fenceLangLowerAux f cs = cs := by
  intro f
  induction f with
  | zero => intro cs _ _; rfl
  | succ f ih =>
    intro cs hl hp
    cases cs with
    | nil => rfl
    | cons c cs =>
      have hne : c ≠ btick := plain_ne_of (all_head hp) (by decide)
      have hr : fenceLangLowerAux f cs = cs :=
        ih cs (Nat.le_of_succ_le_succ hl) (all_tail hp)
      simp only [fenceLangLowerAux, if_neg hne, hr]

theorem delimCands_plain {cs : List Char} (h : cs.all plainChar = true) :
    delimCands cs = [] := by
  cases cs with
  | nil => rfl
  | cons c cs =>
    have h1 : c ≠ '*' := plain_ne_of (all_head h) (by decide)
    have h2 : c ≠ '_' := plain_ne_of (all_head h) (by decide)
    simp only [delimCands, if_neg h1, if_neg h2]

theorem emphSpace1Aux_plain :
    ∀ f (cs : List Char), cs.length ≤ f → cs.all plainChar = true →
      emphSpace1Aux f cs = cs := by
  intro f
  induction f with
  | zero => intro cs _ _; rfl
  | succ f ih =>
    intro cs hl hp
    cases cs with
    | nil => rfl
    | cons c cs =>
      have hr : emphSpace1Aux f cs = cs :=
        ih cs (Nat.le_of_succ_le_succ hl) (all_tail hp)
      have hcand : delimCands cs = [] := delimCands_plain (all_tail hp)
      by_cases hws : isJsWs c = true
      · simp only [emphSpace1Aux, if_pos hws, hr]
      · simp only [emphSpace1Aux, if_neg hws, hcand, List.find?_nil, hr]

theorem emphSpace2Aux_plain :
    ∀ f (cs : List Char), cs.length ≤ f → cs.all plainChar = true →
      emphSpace2Aux f cs = cs := by
  intro f
  induction f with
  | zero => intro cs _ _; rfl
  | succ f ih =>
    intro cs hl hp
    cases cs with
    | nil => rfl
    | cons c cs =>
      have hr : emphSpace2Aux f cs = cs :=
        ih cs (Nat.le_of_succ_le_succ hl) (all_tail hp)
      have hcand : delimCands cs = [] := delimCands_plain (all_tail hp)
      by_cases hws : isJsWs c = true
      · simp only [emphSpace2Aux, if_pos hws, hr]
      · simp only [emphSpace2Aux, if_neg hws, hcand, List.find?_nil, hr]

theorem emphSpace3Aux_plain :
    ∀ f (cs : List Char), cs.length ≤ f → cs.all plainChar = true →
      emphSpace3Aux f cs = cs := by
  intro f
  induction f with
  | zero => intro cs _ _; rfl
  | succ f ih =>
    intro cs hl hp
    cases cs with
    | nil => rfl
    | cons c cs =>
      have hr : emphSpace3Aux f cs = cs :=
        ih cs (Nat.le_of_succ_le_succ hl) (all_tail hp)
      have hcand : delimCands cs = [] := delimCands_plain (all_tail hp)
      by_cases hws : isJsWs c = true
      · simp only [emphSpace3Aux, if_pos hws, hcand, List.find?_nil, hr]
      · simp only [emphSpace3Aux, if_neg hws, hr]

theorem imageAltTrimAux_plain :
    ∀ f (cs : List Char), cs.length ≤ f → cs.all plainChar = true →
      imageAltTrimAux f cs = cs := by
  intro f
  induction f with
  | zero => intro cs _ _; rfl
  | succ f ih =>
    intro cs hl hp
    cases cs with
    | nil => rfl
    | cons c cs =>
      have hne : c ≠ '!' := plain_ne_of (all_head hp) (by decide)
      have hr : imageAltTrimAux f cs = cs :=
        ih cs (Nat.le_of_succ_le_succ hl) (all_tail hp)
      simp only [imageAltTrimAux, if_neg hne, hr]

theorem bulletsToDashAux_plain :
    ∀ f (cs : List Char), cs.length ≤ f → cs.all plainChar = true →
      bulletsToDashAux f cs = cs := by
  intro f
  induction f with
  | zero => intro cs _ _; rfl
  | succ f ih =>
    intro cs hl hp
    cases cs with
    | nil => rfl
    | cons c cs =>
      have hne : c ≠ '\n' := plain_ne_of (all_head hp) (by decide)
      have hr : bulletsToDashAux f cs = cs :=
        ih cs (Nat.le_of_succ_le_succ hl) (all_tail hp)
      simp only [bulletsToDashAux, if_neg hne, hr]

theorem blankBeforeFenceAux_plain :
    ∀ f (cs : List Char), cs.length ≤ f → cs.all plainChar = true →
      blankBeforeFenceAux f cs = cs := by
  intro f
  induction f with
  | zero => intro cs _ _; rfl
  | succ f ih =>
    intro cs hl hp
    cases cs with
    | nil => rfl
    | cons c cs =>
      have hr : blankBeforeFenceAux f cs = cs :=
        ih cs (Nat.le_of_succ_le_succ hl) (all_tail hp)
      rcases cs with _ | ⟨a, _ | ⟨b1, _ | ⟨b2, _ | ⟨b3, r⟩⟩⟩⟩
      · simp only [blankBeforeFenceAux]
        rw [hr]
      · simp only [blankBeforeFenceAux]
        rw [hr]
      · simp only [blankBeforeFenceAux]
        rw [hr]
      · simp only [blankBeforeFenceAux]
        rw [hr]
      · have hane : a ≠ '\n' :=
          plain_ne_of (all_head (all_tail hp)) (by decide)
        simp only [blankBeforeFenceAux]
        rw [if_neg (fun hco => hane hco.2.1), hr]

theorem blankAfterFenceAux_plain :
    ∀ f (cs : List Char), cs.length ≤ f → cs.all plainChar = true →
      blankAfterFenceAux f cs = cs := by
  intro f
  induction f with
  | zero => intro cs _ _; rfl
  | succ f ih =>
    intro cs hl hp
    cases cs with
    | nil => rfl
    | cons c cs =>
      have hne : c ≠ btick := plain_ne_of (all_head hp) (by decide)
      have hr : blankAfterFenceAux f cs = cs :=
        ih cs (Nat.le_of_succ_le_succ hl) (all_tail hp)
      simp only [blankAfterFenceAux, if_neg hne, hr]

theorem jsTrimL_plain {cs : List Char} (h : cs.all plainChar = true)
    (hhead : cs.head?.getD 'x' ≠ ' ') (hlast : cs.getLast?.getD 'x' ≠ ' ') :
    jsTrimL cs = cs := by
  unfold jsTrimL
  have hdw : cs.dropWhile isJsWs = cs := by
    cases cs with
    | nil => rfl
    | cons c l =>
      have hcs : c ≠ ' ' := by exact hhead
      have hcw : isJsWs c = false := plain_not_ws (all_head h) hcs
      have hneg : ¬ (isJsWs c = true) := by simp [hcw]
      exact List.dropWhile_cons_of_neg hneg
  rw [hdw]
  cases hrev : cs.reverse with
  | nil =>
    have : cs = [] := by
      cases cs with
      | nil => rfl
      | cons a l => exact absurd hrev (by simp)
    subst this
    rfl
  | cons d r =>
    have hd_mem : d ∈ cs := by
      rw [← List.mem_reverse, hrev]
      exact List.mem_cons_self d r
    have hdp : plainChar d = true := by
      rw [List.all_eq_true] at h
      exact h d hd_mem
    have hdlast : cs.getLast? = some d := by
      rw [← List.head?_reverse, hrev]
      rfl
    have hdne : d ≠ ' ' := by
      rw [hdlast] at hlast
      exact hlast
    have hdw2 : isJsWs d = false := plain_not_ws hdp hdne
    have hneg : ¬ (isJsWs d = true) := by simp [hdw2]
    rw [List.dropWhile_cons_of_neg hneg]
    rw [← hrev]
    rw [List.reverse_reverse]

theorem runPass_plain {g : Nat → List Char → List Char}
    (hg : ∀ f (cs : List Char), cs.length ≤ f → cs.all plainChar = true →
      g f cs = cs)
    {l : List Char} (h : l.all plainChar = true) : runPass g l = l :=
  hg l.length l (Nat.le_refl _) h

theorem postProcessMarkdown_plain {s : String} (h : plainText s = true) :
    postProcessMarkdown s = s := by
  simp only [plainText, Bool.and_eq_true, bne_iff_ne, ne_eq] at h
  obtain ⟨⟨hall, hhead⟩, hlast⟩ := h
  by_cases hs : s = ""
  · subst hs
    rfl
  · unfold postProcessMarkdown
    rw [if_neg hs]
    rw [normalizeEols_plain hall]
    rw [runPass_plain collapseBlankLinesAux_plain hall]
    rw [runPass_plain fixListSpacingAux_plain hall]
    rw [runPass_plain codeBlockSpacingAux_plain hall]
    rw [runPass_plain headingSpacingAux_plain hall]
    rw [trimLineEnds_plain hall hlast]
    rw [runPass_plain pipeSpaceAfterAux_plain hall]
    rw [runPass_plain pipeSpaceBeforeAux_plain hall]
    rw [runPass_plain nestedIndentAux_plain hall]
    rw [runPass_plain blockquoteBlankAux_plain hall]
    rw [runPass_plain hrSpacingAux_plain hall]
    rw [runPass_plain headingGapAux_plain hall]
    rw [runPass_plain linkTrimAux_plain hall]
    rw [runPass_plain inlineCodeTrimAux_plain hall]
    rw [show orderedRenumber s.data = s.data from
      orderedRenumberAux_plain _ _ _ (Nat.le_refl _) hall]
    rw [runPass_plain fenceLangLowerAux_plain hall]
    rw [runPass_plain emphSpace1Aux_plain hall]
    rw [runPass_plain emphSpace2Aux_plain hall]
    rw [runPass_plain emphSpace3Aux_plain hall]
    rw [runPass_plain imageAltTrimAux_plain hall]
    rw [runPass_plain bulletsToDashAux_plain hall]
    rw [runPass_plain blankBeforeFenceAux_plain hall]
    rw [runPass_plain blankAfterFenceAux_plain hall]
    rw [jsTrimL_plain hall hhead hlast]

/-!
## Support lemmas for the claims
-/

theorem dropWhile_eq_nil_of_all {p : Char → Bool} {l : List Char}
    (h : l.all p = true) : l.dropWhile p = [] := by
  induction l with
  | nil => rfl
  | cons c cs ih =>
    rw [List.dropWhile_cons_of_pos (by simpa using all_head h)]
    exact ih (all_tail h)

theorem jsTrim_eq_empty_of_ws {html : String}
    (h : html.data.all isJsWs = true) : jsTrim html = "" := by
  unfold jsTrim jsTrimL
  rw [dropWhile_eq_nil_of_all h]
  rfl

theorem ddContentLoop_diverges :
    ∀ (f : Nat) (c : String) (cs par : List String),
      ddContentLoop f (c :: cs) par = none := by
  intro f
  induction f with
  | zero => intro c cs par; rfl
  | succ f ih =>
    intro c cs par
    simp only [ddContentLoop]
    exact ih c cs (par ++ [c])

/-!
## Sanity checks (concrete evaluations of the embedded definitions)
-/

example : pipeSpaceAfterAux 10 "|   a".data = "| a".data := by decide
example : pipeSpaceBeforeAux 10 "a   |".data = "a |".data := by decide
example : nestedIndentAux 12 "x\n     - a".data = "x\n    - a".data := by decide
example : blockquoteBlankAux 12 "\n>  \n> a".data = "\n>\n> a".data := by decide
example : hrSpacingAux 12 "a\n---\nb".data = "a\n\n---\n\nb".data := by decide
example : headingGapAux 20 "\n# a\n## b c".data = "\n# a\n\n## b c".data := by decide
example : linkTrimAux 20 "[ ab ]( cd )".data = "[ab](cd)".data := by decide
example : orderedRenumberAux 30 [] "1. a\n5. b\n9. c".data =
    "1. a\n2. b\n6. c".data := by decide
example : emphSpace1Aux 10 "a_b_c".data = "a _b_c".data := by decide
example : emphSpace3Aux 10 "a _b_c".data = "a _ b_c".data := by decide
example : postProcessMarkdown "a_b_c" = "a _ b_c" := by decide
example : postProcessMarkdown "a _ b_c" = "a _ b _ c" := by decide
example : postProcessMarkdown "hello world" = "hello world" := by decide
example :
    extractFrontMatter true "a<!-- front-matter\ntitle: t\n-->b" =
      ("ab", some "title: t") := by decide
example : extractFrontMatter true "<p>a</p>" = ("<p>a</p>", none) := by decide
example :
    restoreSpecialContent id [("MATH_PLACEHOLDER_0", "$x+y=z$")] "$x+y=z$" =
      ("$x+y=z$", []) := by decide
example : headingSpacingAux 10 "x\n##".data = "x\n# #".data := by decide
example : headingSpacingAux 10 "x\n#".data = "x\n#".data := by decide
example : imageAltTrimAux 20 "![a]b]( c )".data = "![a]b](c)".data := by decide
example : (extractBlockMathAux 10 "$$$$".data 0).out = "$$$$".data := by decide
example :
    (extractBlockMathAux 10 "x$$a$$y".data 0).entries =
      [("MATH_BLOCK_PLACEHOLDER_0", "$$a$$")] := by decide
example :
    processDefinitionLists 5 [DlChild.dt "T", DlChild.dd [], DlChild.dt "U"] =
      some [("T", [])] := by decide

/-!
## The claims
-/

/-- C1.  For every input HTML string, `convertToMarkdown` returns a string
and never raises — it is a total function by construction, the whole body
being wrapped in the source's outer `try` — and when an internal pipeline
step (the tree converter, the only step whose exceptions reach that `try`)
throws, the returned string is the original input HTML prefixed with the
Markdown comment `<!-- Markdown conversion failed -->` and a blank line. -/
theorem convert_never_throws_fallback (env : ConversionEnv)
    (opts : MarkdownOptions) (m0 : List (String × String)) (html : String)
    (e : String) (hne : jsTrim html ≠ "")
    (herr : env.turndown (pipelineInput env opts html) = Except.error e) :
    (convertToMarkdown env opts m0 html).1 =
      "<!-- Markdown conversion failed -->\n\n" ++ html := by
  have hg : ¬ (html = "" ∨ jsTrim html = "") := by
    rintro (rfl | hh)
    · exact hne rfl
    · exact hne hh
  unfold convertToMarkdown
  rw [if_neg hg, herr]

/-- Witness for C1 at a concrete input and a concrete throwing converter. -/
theorem convert_never_throws_fallback_witness :
    (convertToMarkdown envErr defaultOpts [] "<p>x</p>").1 =
      "<!-- Markdown conversion failed -->\n\n" ++ "<p>x</p>" :=
  convert_never_throws_fallback envErr defaultOpts [] "<p>x</p>"
    "deliberate failure" (by decide) rfl

/-- C2, counterexample.  The post-processing pass is NOT idempotent: on
`a_b_c` the first run yields `a _ b_c` (the emphasis-spacing regexes consume
the matched text, so the overlapping second `_` is skipped), and the second
run turns that into `a _ b _ c`. -/
theorem postProcess_not_idempotent_cex :
    postProcessMarkdown (postProcessMarkdown "a_b_c") ≠
      postProcessMarkdown "a_b_c" := by decide

/-- C2, amended.  The post-processor is idempotent on strings it fixes, in
particular on plain text — lowercase words separated by single spaces —
which contains none of the characters any pass triggers on; it is not
idempotent in general (see the counterexample). -/
theorem postProcess_idempotent_on_plain (s : String) (h : plainText s = true) :
    postProcessMarkdown (postProcessMarkdown s) = postProcessMarkdown s := by
  rw [postProcessMarkdown_plain h]
  exact postProcessMarkdown_plain h

/-- Witness for the amended C2. -/
theorem postProcess_idempotent_on_plain_witness :
    plainText "hello world" = true ∧
      postProcessMarkdown (postProcessMarkdown "hello world") =
        postProcessMarkdown "hello world" :=
  ⟨by decide, postProcess_idempotent_on_plain "hello world" (by decide)⟩

/-- C3.  `preserveSpecialContent` records `MATH_PLACEHOLDER_0 ↦ $x+y=z$` in
the placeholder map but returns the serialization of the container that was
filled from the ORIGINAL html — the placeholder substitutions performed on
the local string are discarded, so the returned HTML still contains
`$x+y=z$` and no placeholder; consequently `restoreSpecialContent` finds no
occurrence of the placeholder in the converted markdown and restoration is a
no-op for it.  This contradicts the function's own documentation ("returns
processed HTML with special content protected") and the spec's extraction
contract. -/
theorem preserve_restore_math_bug :
    preserveSpecialContent domPreserveId "<p>$x+y=z$</p>" =
      ("<p>$x+y=z$</p>", [("MATH_PLACEHOLDER_0", "$x+y=z$")]) ∧
    restoreSpecialContent id [("MATH_PLACEHOLDER_0", "$x+y=z$")] "$x+y=z$" =
      ("$x+y=z$", []) :=
  ⟨by decide, by decide⟩

/-- C4.  On a two-row table whose first row has `td` cells and which has no
header or body section, normalization CLONES the first row into the new
header (converting its cells to `th`) but leaves the original first row in
place, so the body section receives BOTH original rows: the first row
appears in the header section and again as the first body row. -/
theorem table_first_row_duplicated_bug :
    normalizeTableStructure
      { thead := none,
        direct := [[⟨false, "A"⟩, ⟨false, "B"⟩], [⟨false, "1"⟩, ⟨false, "2"⟩]],
        tbody := none } =
      { thead := some [[⟨true, "A"⟩, ⟨true, "B"⟩]], direct := [],
        tbody := some
          [[⟨false, "A"⟩, ⟨false, "B"⟩], [⟨false, "1"⟩, ⟨false, "2"⟩]] } := by
  decide

/-- C5, counterexample.  With `processComplexStructures = false` the output
still depends on the Unusual-Structure Rewriter: an environment whose
rewriter marks its input produces a different conversion result from the
same environment with an identity rewriter, so the rewriter IS run. -/
theorem rewriter_runs_when_option_off_cex :
    (convertToMarkdown envHU optsNoComplex [] "<p>a</p>").1 ≠
      (convertToMarkdown { envHU with handleUnusualStructures := id }
        optsNoComplex [] "<p>a</p>").1 := by decide

/-- C5, amended.  When `processComplexStructures` is false,
`convertToMarkdown` skips only the Structure Normalizer
(table/list/definition-list/blockquote pre-processing); the
Unusual-Structure Rewriter still runs on the input before tree
conversion. -/
theorem convert_skips_only_normalizer (env : ConversionEnv)
    (opts : MarkdownOptions) (m0 : List (String × String)) (html : String)
    (h : opts.processComplexStructures = false) :
    convertToMarkdown env opts m0 html =
      convertSkippingNormalizer env opts m0 html := by
  simp [convertToMarkdown, convertSkippingNormalizer, pipelineInput, h]

/-- Witness for the amended C5. -/
theorem convert_skips_only_normalizer_witness :
    convertToMarkdown envHU optsNoComplex [] "<p>a</p>" =
      convertSkippingNormalizer envHU optsNoComplex [] "<p>a</p>" :=
  convert_skips_only_normalizer envHU optsNoComplex [] "<p>a</p>" rfl

/-- C6.  The definition-list rewrite never produces the claimed paragraphs
for any term that has a description with content: its content-copy loop
(`while (desc.firstChild) paragraph.appendChild(desc.firstChild.cloneNode(true))`,
lines 300-302) appends a clone without removing the original child, so
`desc.firstChild` never changes and the loop runs forever — after ANY number
of iterations it is still going (first two conjuncts), and no surrounding
catch fires because no exception is thrown.  In the only terminating cases
the behavior also differs from the claim: a term with zero following
descriptions yields no paragraph at all (third conjunct), and childless
descriptions each yield their own empty-content paragraph — one per
description, not one per term (fourth conjunct). -/
theorem dl_copy_loop_diverges_bug :
    (∀ fuel : Nat, ddContentLoop fuel ["a"] [] = none) ∧
    (∀ fuel : Nat,
      processDefinitionLists fuel [DlChild.dt "T", DlChild.dd ["a"]] = none) ∧
    processDefinitionLists 5 [DlChild.dt "T"] = some [] ∧
    processDefinitionLists 5 [DlChild.dt "T", DlChild.dd [], DlChild.dd []] =
      some [("T", []), ("T", [])] := by
  refine ⟨fun fuel => ddContentLoop_diverges fuel "a" [] [], fun fuel => ?_,
    by decide, by decide⟩
  have h := ddContentLoop_diverges fuel "a" [] []
  simp [processDefinitionLists, processDefinitionListsAux, collectDds, h]

/-- C7.  The post-processor flattens nested-list indentation instead of
normalizing it to two spaces per level: its third replacement
(`/\n\s*[-*+]\s/g → '\n- '`) strips ALL leading whitespace from every list
marker before the dedicated nested-indentation step (which would compute the
2-space-per-level indent) can ever match, so a three-level list comes out
with all markers at column zero — contradicting both the spec and the
code's own "Fix indentation in nested lists" step, which is unreachable. -/
theorem nested_list_indent_flattened_bug :
    postProcessMarkdown "- a\n  - b\n    - c" = "- a\n- b\n- c" := by decide

/-- C8, counterexample.  An `iframe` with no `src` is left in the DOM
unchanged (not replaced by any note), and a `video` with no poster and no
source is replaced by a wrapper with EMPTY content (not an unavailability
note); only `audio` degrades to a textual note. -/
theorem media_no_url_note_cex :
    rewriteIframe "" none = MediaRewrite.unchanged ∧
      rewriteVideo "" [] = MediaRewrite.replacedDiv "video-content" "" := by
  decide

/-- C8, amended.  For embedded media whose URL cannot be resolved: an
`audio` element is replaced with an inline note that the content is
unavailable; an `iframe` without `src` is left unchanged; a `video` without
poster and without source is replaced with an empty wrapper. -/
theorem media_no_url_behavior (title : Option String) (poster : String)
    (vsources asources : List String) (hp : poster = "")
    (hv : vsources.head?.getD "" = "") (ha : asources.head?.getD "" = "") :
    rewriteIframe "" title = MediaRewrite.unchanged ∧
      rewriteVideo poster vsources =
        MediaRewrite.replacedDiv "video-content" "" ∧
      rewriteAudioEl asources = MediaRewrite.replacedDiv "audio-content"
        "<p><em>Audio content (source not available)</em></p>" := by
  refine ⟨rfl, ?_, ?_⟩
  · subst hp
    simp [rewriteVideo, hv]
  · simp [rewriteAudioEl, ha]

/-- Witness for the amended C8. -/
theorem media_no_url_behavior_witness :
    rewriteIframe "" none = MediaRewrite.unchanged ∧
      rewriteVideo "" [] = MediaRewrite.replacedDiv "video-content" "" ∧
      rewriteAudioEl [] = MediaRewrite.replacedDiv "audio-content"
        "<p><em>Audio content (source not available)</em></p>" :=
  media_no_url_behavior none "" [] [] rfl rfl rfl

/-- C9, counterexample.  On a table with zero rows and no body section,
normalization is NOT a structural no-op: an empty `tbody` is appended. -/
theorem zero_row_table_not_noop_cex :
    normalizeTableStructure { thead := none, direct := [], tbody := none } ≠
      { thead := none, direct := [], tbody := none } := by decide

/-- C9, amended.  For every table with zero rows, normalization adds no
header section and moves no row, and raises no exception; but when the table
has no body section, an empty body section is appended (the `tbody` step is
unconditional), so the table is returned unchanged only when a body section
already exists. -/
theorem zero_row_table_adds_empty_tbody (t : TableModel)
    (h : tableRows t = []) :
    normalizeTableStructure t =
      { thead := t.thead, direct := t.direct, tbody := some (t.tbody.getD []) } := by
  rcases t with ⟨th, d, tb⟩
  rcases th with _ | hs <;> rcases tb with _ | bs
  · simp only [tableRows, Option.getD_none, List.nil_append,
      List.append_nil] at h
    subst h
    decide
  · simp only [tableRows, Option.getD_none, Option.getD_some, List.nil_append,
      List.append_eq_nil] at h
    obtain ⟨rfl, rfl⟩ := h
    decide
  · simp only [tableRows, Option.getD_none, Option.getD_some, List.append_nil,
      List.append_eq_nil] at h
    obtain ⟨rfl, rfl⟩ := h
    decide
  · simp only [tableRows, Option.getD_some, List.append_eq_nil] at h
    obtain ⟨⟨rfl, rfl⟩, rfl⟩ := h
    decide

/-- Witness for the amended C9. -/
theorem zero_row_table_adds_empty_tbody_witness :
    normalizeTableStructure { thead := none, direct := [], tbody := none } =
      { thead := none, direct := [], tbody := some [] } :=
  zero_row_table_adds_empty_tbody
    { thead := none, direct := [], tbody := none } rfl

/-- C10.  For every input that is empty or consists only of whitespace,
`convertToMarkdown` returns exactly the empty string, emits no fallback
comment and no front-matter fences, and leaves the placeholder-map state
untouched (the early return fires before the map is reset). -/
theorem convert_empty_input_returns_empty (env : ConversionEnv)
    (opts : MarkdownOptions) (m0 : List (String × String)) (html : String)
    (h : html.data.all isJsWs = true) :
    convertToMarkdown env opts m0 html = ("", m0) := by
  unfold convertToMarkdown
  rw [if_pos (Or.inr (jsTrim_eq_empty_of_ws h))]

/-- Witness for C10 at a concrete whitespace-only input. -/
theorem convert_empty_input_returns_empty_witness :
    convertToMarkdown envErr defaultOpts [("k", "v")] " \n\t " =
      ("", [("k", "v")]) :=
  convert_empty_input_returns_empty envErr defaultOpts [("k", "v")] " \n\t "
    (by decide)

end MarkdownIfy
